import Mathlib

/-!
Verification of the moment.js date-utility module (recurring events, range
algebra, range splitting, duration aggregation, business days, slot
scheduling, batch timezone conversion).

Embedding conventions:
* An instant is an integer number of minutes since an epoch (the moment
  timeline, zone-naive).  A value that may fail to resolve to a valid
  instant (a JS argument that moment might reject) is an `Option Int`,
  with `none` playing the role of an invalid moment.
* A calendar day is 1440 minutes; the day number of an instant `t` is
  `t / 1440` (floor division) and stands for the `YYYY-MM-DD` key of the
  instant.  The epoch day is a Thursday (like the Unix epoch), so the JS
  `day()` weekday (0 = Sunday .. 6 = Saturday) of `t` is
  `(t / 1440 + 4) % 7`.
* The source's `null` return becomes `none`; a returned array becomes
  `some` of a list.
* The moment-timezone database and the formatting routine are external to
  the repository; they enter as explicit function parameters (`tzdb`,
  `fmt`).  Applying a timezone to an instant does not change the instant
  itself (moment's `.tz()` changes only the rendering), so the zone
  parameter affects validation and formatting only.
* The `while` loops of the source become fuel-indexed recursions that
  return `none` when the fuel runs out; each top-level function passes a
  fuel bound that is proved sufficient, so exhaustion never happens on the
  paths the theorems speak about.
* Calendar units: for recurrence/aggregation the units are fixed-length
  (`MUnit`, length in minutes); for range splitting, which uses
  `startOf`/`endOf` truncation, a unit is an abstract block structure on
  the timeline (`CalUnit`) mirroring the calendar-primitives collaborator,
  with `dayUnit` as the concrete day instance.
-/

namespace JsDateUtils

/-- Minutes in a calendar day. -/
def dayLen : Int := 1440

/-- Fixed-length calendar units (length in minutes) used by
`generateRecurringEvents` and `aggregateDateRanges`. -/
inductive MUnit : Type
  | minutes : MUnit
  | hours : MUnit
  | days : MUnit
  | weeks : MUnit
deriving DecidableEq

/-- Length of a fixed unit, in minutes. -/
def MUnit.len : MUnit → Int
  | .minutes => 1
  | .hours => 60
  | .days => 1440
  | .weeks => 10080

/-- JS `day()` weekday of an instant: 0 = Sunday .. 6 = Saturday; the epoch
day is a Thursday. -/
def weekday (t : Int) : Int := (t / 1440 + 4) % 7

/-- Year-month-day key of an instant (the `format('YYYY-MM-DD')` class):
its day number. -/
def dateKey (t : Int) : Int := t / 1440

/-- Gregorian leap-year rule of the external calendar library. -/
def isLeap (y : Int) : Bool := (y % 4 == 0 && y % 100 != 0) || (y % 400 == 0)

/-- Length of a Gregorian month. -/
def daysInMonth (y m : Int) : Int :=
  if m = 2 then (if isLeap y then 29 else 28)
  else if m = 4 ∨ m = 6 ∨ m = 9 ∨ m = 11 then 30 else 31

/-- Day number (days since 1970-01-01) of a proleptic Gregorian civil date
(the standard era-based conversion). -/
def daysFromCivil (y m d : Int) : Int :=
  let y2 := if m ≤ 2 then y - 1 else y
  let era := y2 / 400
  let yoe := y2 - era * 400
  let mp := (m + 9) % 12
  let doy := (153 * mp + 2) / 5 + d - 1
  let doe := yoe * 365 + yoe / 4 - yoe / 100 + doy
  era * 146097 + doe - 719468

/-- Civil date `(year, month, day)` of a day number; inverse of
`daysFromCivil`. -/
def civilFromDays (z : Int) : Int × Int × Int :=
  let z2 := z + 719468
  let era := z2 / 146097
  let doe := z2 - era * 146097
  let yoe := (doe - doe / 1460 + doe / 36524 - doe / 146096) / 365
  let y := yoe + era * 400
  let doy := doe - (365 * yoe + yoe / 4 - yoe / 100)
  let mp := (5 * doy + 2) / 153
  let d := doy - (153 * mp + 2) / 5 + 1
  let m := mp + (if mp < 10 then 3 else -9)
  (if m ≤ 2 then y + 1 else y, m, d)

/-- Moment's `add(k, 'months')` on a minute instant, as the calendar
library documents it: advance the month index by `k`, clamp the
day-of-month to the target month's length, keep the time of day. -/
def addMonths (k t : Int) : Int :=
  let ymd := civilFromDays (t / 1440)
  let n := 12 * ymd.1 + (ymd.2.1 - 1) + k
  let y2 := n / 12
  let m2 := n % 12 + 1
  let d2 := min ymd.2.2 (daysInMonth y2 m2)
  daysFromCivil y2 m2 d2 * 1440 + t % 1440

/-- Moment's fractional month difference `a.diff(b, 'months', true)`, as
the calendar library documents it: the whole-month difference between the
civil dates, plus a linear interpolation between the two month anchors
around `b`. -/
def monthDiffQ (a b : Int) : ℚ :=
  let pa := civilFromDays (a / 1440)
  let pb := civilFromDays (b / 1440)
  let whole := (pb.1 - pa.1) * 12 + (pb.2.1 - pa.2.1)
  let anchor := addMonths whole a
  if b - anchor < 0 then
    -((whole : ℚ) + ((b - anchor : Int) : ℚ) /
      ((anchor - addMonths (whole - 1) a : Int) : ℚ))
  else
    -((whole : ℚ) + ((b - anchor : Int) : ℚ) /
      ((addMonths (whole + 1) a - anchor : Int) : ℚ))

/-- Recurrence unit for `generateRecurringEvents`, mirroring the
calendar-primitives collaborator: `add k t` is moment's `add(k, unit)` on
the instant `t`.  Fixed-length units embed via `MUnit.toRecUnit`;
`monthUnit` and `yearUnit` are the non-uniform calendar units with
moment's day-clamping arithmetic. -/
structure RecUnit : Type where
  add : Int → Int → Int

/-- A fixed-length unit as a recurrence unit: advancing by `k` units adds
`k` times the unit length. -/
def MUnit.toRecUnit (u : MUnit) : RecUnit := ⟨fun k t => t + k * u.len⟩

/-- The month recurrence unit (moment's clamping month add). -/
def monthUnit : RecUnit := ⟨addMonths⟩

/-- The year recurrence unit: moment's year add is a twelve-month
clamping add. -/
def yearUnit : RecUnit := ⟨fun k t => addMonths (12 * k) t⟩

/-- Emission loop of `generateRecurringEvents` (lines 23-26) specialized
to a fixed-length unit: from `cur`, emit `cur` and advance by `step`
minutes while `cur <= e`.  Fuel-indexed; `none` means the fuel ran out
before the guard failed. -/
def recurAux (e step : Int) : Nat → Int → Option (List Int)
  | 0, _ => none
  | fuel + 1, cur =>
    if cur ≤ e then (recurAux e step fuel (cur + step)).map (cur :: ·)
    else some []

/-- Emission loop of `generateRecurringEvents` (lines 23-26) for an
arbitrary calendar advance `step` (the unit's `add(intervalValue, unit)`):
from `cur`, emit `cur` and advance while `cur <= e`.  Fuel-indexed. -/
def recurAuxG (e : Int) (step : Int → Int) : Nat → Int → Option (List Int)
  | 0, _ => none
  | fuel + 1, cur =>
    if cur ≤ e then (recurAuxG e step fuel (step cur)).map (cur :: ·)
    else some []

/-- Lines 13-28 of the module: `generateRecurringEvents`.  Input instants
are `Option Int`; `none` models an argument moment rejects.  `iv` models
`intervalValue` (the `Number.isInteger` check makes it an integer; `iv ≤ 0`
is rejected).  The unit is any `RecUnit` (fixed-length, month or year).
`timezone`/`tzdb` model the optional zone and the external zone database;
a supplied unknown zone is rejected, and a known zone leaves the instants
unchanged. -/
def generateRecurringEvents (startDate endDate : Option Int) (u : RecUnit)
    (iv : Int) (timezone : Option String) (tzdb : String → Bool) :
    Option (List Int) :=
  match startDate, endDate with
  | some s, some e =>
    if iv ≤ 0 then none
    else
      match timezone with
      | some z => if tzdb z then recurAuxG e (u.add iv) ((e + 1 - s).toNat + 1) s else none
      | none => recurAuxG e (u.add iv) ((e + 1 - s).toNat + 1) s
  | _, _ => none

/-- Lines 37-44 of the module: `batchConvertTimezone`.  `fmt z t` models
`moment(t).tz(z).format(format)` for a valid instant `t`; an invalid
element maps to the empty string and the final `filter` drops empty
strings, exactly as in the source. -/
def batchConvertTimezone (dates : List (Option Int)) (targetTimezone : String)
    (tzdb : String → Bool) (fmt : String → Int → String) :
    Option (List String) :=
  if tzdb targetTimezone then
    some ((dates.map (fun d =>
      match d with
      | some t => fmt targetTimezone t
      | none => "")).filter (fun s => s ≠ ""))
  else none

/-- Lines 54-68 of the module: `getDateRangeIntersection`.  Returns `none`
when an endpoint is invalid, when a range is inverted, or when the ranges
are disjoint; otherwise the `max`/`min` candidate range. -/
def getDateRangeIntersection (start1 end1 start2 end2 : Option Int) :
    Option (Int × Int) :=
  match start1, end1, start2, end2 with
  | some a, some b, some c, some d =>
    if b < a ∨ d < c then none
    else if min b d < max a c then none
    else some (max a c, min b d)
  | _, _, _, _ => none

/-- Abstract calendar unit for `splitDateRange`, mirroring the
calendar-primitives collaborator: the unit partitions the timeline into
consecutive blocks (days, weeks, months, ...).  `blockStart i` is the first
instant of block `i`, `idx t` the block containing `t`, and `add k t`
moment's `add(k, unit)`, which always moves an instant exactly `k` blocks
forward. -/
structure CalUnit : Type where
  blockStart : Int → Int
  idx : Int → Int
  add : Int → Int → Int
  start_le : ∀ t : Int, blockStart (idx t) ≤ t
  lt_next : ∀ t : Int, t < blockStart (idx t + 1)
  mono : ∀ i j : Int, i ≤ j → blockStart i ≤ blockStart j
  idx_add : ∀ (k t : Int), idx (add k t) = idx t + k

/-- Moment's `startOf(unit)`: first instant of the block containing `t`. -/
def CalUnit.startOfU (u : CalUnit) (t : Int) : Int := u.blockStart (u.idx t)

/-- Moment's `endOf(unit)`: last instant of the block containing `t`. -/
def CalUnit.endOfU (u : CalUnit) (t : Int) : Int := u.blockStart (u.idx t + 1) - 1

/-- The concrete day unit over the minute timeline. -/
def dayUnit : CalUnit where
  blockStart := fun i => 1440 * i
  idx := fun t => t / 1440
  add := fun k t => t + 1440 * k
  start_le := fun t => by dsimp only; omega
  lt_next := fun t => by dsimp only; omega
  mono := fun i j h => by dsimp only; omega
  idx_add := fun k t => by dsimp only; omega

/-- Chunking loop of `splitDateRange` (lines 85-93): while
`currentStart <= end`, compute `currentEnd = currentStart.add(chunkSize-1,
unit).endOf(unit)`; if it overshoots `end`, emit the clipped final chunk
and stop, otherwise emit the chunk and restart from
`currentStart.add(chunkSize, unit).startOf(unit)`.  Fuel-indexed. -/
def splitLoop (u : CalUnit) (e cs : Int) : Nat → Int → Option (List (Int × Int))
  | 0, _ => none
  | fuel + 1, cur =>
    if cur ≤ e then
      let curEnd := u.endOfU (u.add (cs - 1) cur)
      if e < curEnd then some [(cur, e)]
      else (splitLoop u e cs fuel (u.startOfU (u.add cs cur))).map ((cur, curEnd) :: ·)
    else some []

/-- Lines 78-95 of the module: `splitDateRange`.  Invalid endpoints or a
non-positive `chunkSize` give `null`; otherwise the chunking loop runs. -/
def splitDateRange (startDate endDate : Option Int) (u : CalUnit) (cs : Int) :
    Option (List (Int × Int)) :=
  match startDate, endDate with
  | some s, some e =>
    if cs ≤ 0 then none
    else splitLoop u e cs ((e + 1 - s).toNat + 1) s
  | _, _ => none

/-- Check performed on each range by `aggregateDateRanges` (line 109): both
endpoints resolve and the range is not inverted. -/
def isValidRange : Option Int × Option Int → Bool
  | (some s, some e) => decide (s ≤ e)
  | _ => false

/-- Fractional difference `end.diff(start, unit, true)` of a range in a
fixed unit. -/
def diffQ (s e : Int) (u : MUnit) : ℚ := ((e - s : Int) : ℚ) / (u.len : ℚ)

/-- Accumulating loop of `aggregateDateRanges` (lines 105-111): walk the
ranges left to right, fail on the first invalid or inverted range,
otherwise add the fractional duration. -/
def aggAux (u : MUnit) (acc : ℚ) : List (Option Int × Option Int) → Option ℚ
  | [] => some acc
  | r :: rest =>
    match r with
    | (some s, some e) =>
      if e < s then none else aggAux u (acc + diffQ s e u) rest
    | _ => none

/-- Lines 103-113 of the module: `aggregateDateRanges`. -/
def aggregateDateRanges (ranges : List (Option Int × Option Int)) (u : MUnit) :
    Option ℚ :=
  aggAux u 0 ranges

/-- Holiday keys of `getNextBusinessDay` (lines 125-127): resolve each
entry, silently drop the invalid ones, and keep the `YYYY-MM-DD` keys. -/
def holidayKeys (holidays : List (Option Int)) : List Int :=
  (holidays.filterMap id).map dateKey

/-- Guard of the business-day loop (line 130): the candidate is a Sunday, a
Saturday, or a listed holiday. -/
def isBlockedDay (hk : List Int) (t : Int) : Bool :=
  decide (weekday t = 0) || decide (weekday t = 6) || hk.contains (dateKey t)

/-- Advancing loop of `getNextBusinessDay` (lines 129-132): add one day
while the candidate is blocked.  Fuel-indexed. -/
def bdLoop (hk : List Int) : Nat → Int → Option Int
  | 0, _ => none
  | fuel + 1, t => if isBlockedDay hk t then bdLoop hk fuel (t + 1440) else some t

/-- Fuel bound for the business-day loop: walk to the first strictly
later day that lies past every listed holiday key and falls on a Monday
(weekday 1); such a day is never blocked. -/
def bdFuel (hk : List Int) (t : Int) : Nat :=
  ((hk.foldr max (t / 1440) + 1) +
    ((-3 - (hk.foldr max (t / 1440) + 1)) % 7) - t / 1440).toNat

/-- Lines 121-134 of the module: `getNextBusinessDay`. -/
def getNextBusinessDay (date : Option Int) (holidays : List (Option Int)) :
    Option Int :=
  match date with
  | none => none
  | some t => bdLoop (holidayKeys holidays) (bdFuel (holidayKeys holidays) t) (t + 1440)

/-- Slot-generation constraints (line 151): `days` is the excluded-weekday
list; `hs`/`he` are the daily window bounds as minutes after midnight
(the parse of the `HH:mm` strings, e.g. the default `00:00`/`23:59` is
`0`/`1439`). -/
structure SlotConstraints : Type where
  days : List Int
  hs : Int
  he : Int
deriving DecidableEq

/-- Default constraints of `generateTimeSlots`: no excluded weekday, daily
window `00:00` to `23:59`. -/
def defaultConstraints : SlotConstraints := ⟨[], 0, 1439⟩

/-- Inner slot loop of `generateTimeSlots` (lines 160-166): from
`slotStart`, while `slotStart <= dayEnd` and `slotStart <= e`, stop as
soon as the slot's end passes `dayEnd` or `e`, otherwise emit the slot
and advance by the duration.  Fuel-indexed. -/
def slotsInDay (dayEnd e dur : Int) : Nat → Int → Option (List (Int × Int))
  | 0, _ => none
  | fuel + 1, slotStart =>
    if slotStart ≤ dayEnd ∧ slotStart ≤ e then
      if dayEnd < slotStart + dur ∨ e < slotStart + dur then some []
      else (slotsInDay dayEnd e dur fuel (slotStart + dur)).map
        ((slotStart, slotStart + dur) :: ·)
    else some []

/-- Per-day body of `generateTimeSlots` (lines 157-167): the day of
`current` contributes slots from its window `dayStart..dayEnd` (the day's
date combined with the constraint times) when its weekday is not excluded
and `dayStart` is not past the overall end. -/
def daySlots (e dur : Int) (c : SlotConstraints) (current : Int) :
    Option (List (Int × Int)) :=
  if ¬ c.days.contains (weekday current) ∧ (current / 1440) * 1440 + c.hs ≤ e then
    slotsInDay ((current / 1440) * 1440 + c.he) e dur
      (((current / 1440) * 1440 + c.he + 1 - ((current / 1440) * 1440 + c.hs)).toNat + 1)
      ((current / 1440) * 1440 + c.hs)
  else some []

/-- Day loop of `generateTimeSlots` (lines 156-169): for each calendar day
from `current` to `e`, collect the day's slots, then jump to the start of
the next day (`add(1, 'day').startOf('day')`).  Fuel-indexed. -/
def slotDayLoop (e dur : Int) (c : SlotConstraints) : Nat → Int → Option (List (Int × Int))
  | 0, _ => none
  | fuel + 1, current =>
    if current ≤ e then
      (daySlots e dur c current).bind (fun a =>
        (slotDayLoop e dur c fuel ((current / 1440 + 1) * 1440)).map (fun b => a ++ b))
    else some []

/-- Lines 145-171 of the module: `generateTimeSlots`. -/
def generateTimeSlots (startDate endDate : Option Int) (dur : Int)
    (c : SlotConstraints) (timezone : Option String) (tzdb : String → Bool) :
    Option (List (Int × Int)) :=
  match startDate, endDate with
  | some s, some e =>
    if dur ≤ 0 then none
    else
      match timezone with
      | some z => if tzdb z then slotDayLoop e dur c ((e + 1 - s).toNat + 1) s else none
      | none => slotDayLoop e dur c ((e + 1 - s).toNat + 1) s
  | _, _ => none

/-! Theorems. -/

/-- C1 counterexample: a disjoint pair of perfectly valid ranges gets the
very same return value (`none`, the embedding of `null`) as a call whose
first endpoint is an invalid instant, so a caller cannot tell the two
outcomes apart from the return value alone. -/
theorem intersection_conflates_outcomes :
    getDateRangeIntersection (some 0) (some 1) (some 5) (some 6) = none ∧
    getDateRangeIntersection none (some 1) (some 5) (some 6) = none ∧
    getDateRangeIntersection (some 0) (some 1) (some 5) (some 6) =
      getDateRangeIntersection none (some 1) (some 5) (some 6) := by
  refine ⟨rfl, rfl, rfl⟩

/-- C1 (amended): `getDateRangeIntersection` returns `null` both for
malformed input (an invalid endpoint or an inverted range) and for
disjoint ranges, so those two outcomes are not distinguishable from the
return value; only a nonempty intersection (including the zero-length
`start == end` case) is distinguished, as a non-null range. -/
theorem intersection_outcomes_amended (a b c d : Int) :
    (b < a ∨ d < c →
      getDateRangeIntersection (some a) (some b) (some c) (some d) = none) ∧
    (a ≤ b → c ≤ d → min b d < max a c →
      getDateRangeIntersection (some a) (some b) (some c) (some d) = none) ∧
    (a ≤ b → c ≤ d → max a c ≤ min b d →
      getDateRangeIntersection (some a) (some b) (some c) (some d) =
        some (max a c, min b d)) ∧
    (∀ w x y z : Option Int, w = none ∨ x = none ∨ y = none ∨ z = none →
      getDateRangeIntersection w x y z = none) := by
  refine ⟨fun h => ?_, fun h1 h2 h3 => ?_, fun h1 h2 h3 => ?_, fun w x y z h => ?_⟩
  · simp [getDateRangeIntersection, h]
  · simp [getDateRangeIntersection, h3]
  · have hne : ¬ (b < a ∨ d < c) := by omega
    simp [getDateRangeIntersection, hne]
    omega
  · cases w <;> cases x <;> cases y <;> cases z <;>
      simp_all [getDateRangeIntersection]

/-- Witness for the amended C1 theorem at concrete inputs. -/
theorem intersection_outcomes_amended_witness :
    getDateRangeIntersection (some 10) (some 0) (some 20) (some 30) = none ∧
    getDateRangeIntersection (some 0) (some 1) (some 5) (some 7) = none ∧
    getDateRangeIntersection (some 0) (some 10) (some 5) (some 15) =
      some (max 0 5, min 10 15) ∧
    getDateRangeIntersection none (some 1) (some 2) (some 3) = none :=
  ⟨(intersection_outcomes_amended 10 0 20 30).1 (Or.inl (by norm_num)),
   (intersection_outcomes_amended 0 1 5 7).2.1 (by norm_num) (by norm_num) (by norm_num),
   (intersection_outcomes_amended 0 10 5 15).2.2.1 (by norm_num) (by norm_num) (by norm_num),
   (intersection_outcomes_amended 0 0 0 0).2.2.2 none (some 1) (some 2) (some 3)
     (Or.inl rfl)⟩

/-- C3 counterexample: an inverted range (`start` after `end`) is not
rejected by `splitDateRange` or by `generateTimeSlots`; both answer with
the non-error empty array (`some []`), not with `null`. -/
theorem inverted_range_not_rejected_counterexample :
    splitDateRange (some 1500) (some 100) dayUnit 1 = some [] ∧
    generateTimeSlots (some 1500) (some 100) 30 defaultConstraints none
      (fun _ => true) = some [] := by
  refine ⟨rfl, rfl⟩

/-- C3 (amended): of the three range-consuming operations only
`aggregateDateRanges` rejects an inverted range with the malformed-input
`null`; `splitDateRange` and `generateTimeSlots` accept an inverted range
and silently answer with the empty (non-error) array. -/
theorem inverted_range_amended (s e : Int) (u : MUnit) (cu : CalUnit)
    (c : SlotConstraints) (cs dur : Int) (tzdb : String → Bool)
    (hinv : e < s) :
    aggregateDateRanges [(some s, some e)] u = none ∧
    (0 < cs → splitDateRange (some s) (some e) cu cs = some []) ∧
    (0 < dur →
      generateTimeSlots (some s) (some e) dur c none tzdb = some []) := by
  refine ⟨?_, fun hcs => ?_, fun hdur => ?_⟩
  · simp [aggregateDateRanges, aggAux, hinv]
  · have h1 : ¬ cs ≤ 0 := by omega
    have h2 : ¬ s ≤ e := by omega
    simp [splitDateRange, h1, splitLoop, h2]
  · have h1 : ¬ dur ≤ 0 := by omega
    have h2 : ¬ s ≤ e := by omega
    simp [generateTimeSlots, h1, slotDayLoop, h2]

/-- Witness for the amended C3 theorem at concrete inputs. -/
theorem inverted_range_amended_witness :
    aggregateDateRanges [(some 9, some 2)] MUnit.days = none ∧
    splitDateRange (some 9) (some 2) dayUnit 3 = some [] ∧
    generateTimeSlots (some 9) (some 2) 15 defaultConstraints none
      (fun _ => false) = some [] := by
  have h := inverted_range_amended 9 2 MUnit.days dayUnit defaultConstraints 3 15
    (fun _ => false) (by norm_num)
  exact ⟨h.1, h.2.1 (by norm_num), h.2.2 (by norm_num)⟩

/-- Aggregation loop on a list of all-valid ranges: it succeeds and adds
the fractional durations to the accumulator. -/
theorem aggAux_all_valid (u : MUnit) :
    ∀ (l : List (Option Int × Option Int)) (acc : ℚ),
      (∀ r ∈ l, isValidRange r = true) →
      aggAux u acc l =
        some (acc + (l.map (fun r => diffQ (r.1.getD 0) (r.2.getD 0) u)).sum) := by
  intro l
  induction l with
  | nil => intro acc _; simp [aggAux]
  | cons r rest ih =>
    intro acc h
    obtain ⟨s, e, hr, hse⟩ : ∃ s e, r = (some s, some e) ∧ s ≤ e := by
      have hv := h r (by simp)
      match r with
      | (some s, some e) =>
        exact ⟨s, e, rfl, by simpa [isValidRange] using hv⟩
      | (none, _) => simp [isValidRange] at hv
      | (some _, none) => simp [isValidRange] at hv
    subst hr
    have hnot : ¬ e < s := by omega
    rw [show aggAux u acc ((some s, some e) :: rest)
        = aggAux u (acc + diffQ s e u) rest by simp [aggAux, hnot]]
    rw [ih (acc + diffQ s e u) (fun q hq => h q (List.mem_cons_of_mem _ hq))]
    simp [add_assoc]

/-- Aggregation loop on a list containing an invalid or inverted range:
it fails with no partial result. -/
theorem aggAux_has_invalid (u : MUnit) :
    ∀ (l : List (Option Int × Option Int)) (acc : ℚ),
      (∃ r ∈ l, isValidRange r = false) → aggAux u acc l = none := by
  intro l
  induction l with
  | nil => rintro acc ⟨r, hr, _⟩; simp at hr
  | cons r rest ih =>
    rintro acc ⟨q, hq, hqv⟩
    by_cases hr : isValidRange r = true
    · have hq' : q ∈ rest := by
        rcases List.mem_cons.mp hq with rfl | h
        · rw [hr] at hqv; cases hqv
        · exact h
      obtain ⟨s, e, hre, hse⟩ : ∃ s e, r = (some s, some e) ∧ s ≤ e := by
        match r with
        | (some s, some e) =>
          exact ⟨s, e, rfl, by simpa [isValidRange] using hr⟩
        | (none, _) => simp [isValidRange] at hr
        | (some _, none) => simp [isValidRange] at hr
      subst hre
      have hnot : ¬ e < s := by omega
      rw [show aggAux u acc ((some s, some e) :: rest)
          = aggAux u (acc + diffQ s e u) rest by simp [aggAux, hnot]]
      exact ih _ ⟨q, hq', hqv⟩
    · match r with
      | (none, _) => simp [aggAux]
      | (some s, none) => simp [aggAux]
      | (some s, some e) =>
        have hlt : e < s := by
          simp [isValidRange] at hr; omega
        simp [aggAux, hlt]

/-- C8: `aggregateDateRanges` returns `0` for the empty collection; if any
range has an invalid endpoint or `start > end` the entire call fails with
`null` and no partial result; otherwise it returns the sum over all ranges
of the fractional difference `end - start` expressed in the unit. -/
theorem aggregateDateRanges_spec (u : MUnit) :
    aggregateDateRanges [] u = some 0 ∧
    (∀ l, (∃ r ∈ l, isValidRange r = false) → aggregateDateRanges l u = none) ∧
    (∀ l, (∀ r ∈ l, isValidRange r = true) →
      aggregateDateRanges l u =
        some ((l.map (fun r => diffQ (r.1.getD 0) (r.2.getD 0) u)).sum)) := by
  refine ⟨rfl, fun l h => aggAux_has_invalid u l 0 h, fun l h => ?_⟩
  rw [aggregateDateRanges, aggAux_all_valid u l 0 h, zero_add]

/-- Witness for the C8 theorem: one failing batch with an unresolvable
endpoint and one successful aggregation (0 to 1.5 days). -/
theorem aggregateDateRanges_spec_witness :
    aggregateDateRanges [(none, some 5)] MUnit.days = none ∧
    aggregateDateRanges [(some 0, some 2160)] MUnit.days =
      some (([((some 0 : Option Int), (some 2160 : Option Int))].map
        (fun r => diffQ (r.1.getD 0) (r.2.getD 0) MUnit.days)).sum) :=
  ⟨(aggregateDateRanges_spec MUnit.days).2.1 _
      ⟨(none, some 5), by simp, by rfl⟩,
   (aggregateDateRanges_spec MUnit.days).2.2 _ (by decide)⟩

/-- C9: `batchConvertTimezone` fails the entire call when the target zone
is unknown; with a known zone, elements that fail to resolve are dropped
while every resolvable element is converted, in input order (assuming, as
with the moment format patterns in use, that formatting a valid instant
never yields the empty string). -/
theorem batchConvertTimezone_spec (dates : List (Option Int)) (z : String)
    (tzdb : String → Bool) (fmt : String → Int → String) :
    (tzdb z = false → batchConvertTimezone dates z tzdb fmt = none) ∧
    (tzdb z = true → (∀ t : Int, fmt z t ≠ "") →
      batchConvertTimezone dates z tzdb fmt =
        some (dates.filterMap (fun d => d.map (fmt z)))) := by
  constructor
  · intro h; simp [batchConvertTimezone, h]
  · intro h hf
    simp only [batchConvertTimezone, h, if_true, Option.some_inj]
    induction dates with
    | nil => rfl
    | cons d rest ih =>
      cases d with
      | none => simpa using ih
      | some t => simpa [hf t] using ih

/-- Witness for the C9 theorem: an unknown zone fails the whole call, a
known zone drops the single unresolvable element and keeps the rest. -/
theorem batchConvertTimezone_spec_witness :
    batchConvertTimezone [some 5] "Bad" (fun z => z == "Asia/Tokyo")
      (fun _ _ => "ok") = none ∧
    batchConvertTimezone [some 5, none, some 7] "Asia/Tokyo"
      (fun z => z == "Asia/Tokyo") (fun _ _ => "ok") =
      some ([some 5, none, some 7].filterMap
        (fun d => d.map ((fun (_ : String) (_ : Int) => "ok") "Asia/Tokyo"))) :=
  ⟨(batchConvertTimezone_spec [some 5] "Bad" _ _).1 (by decide),
   (batchConvertTimezone_spec [some 5, none, some 7] "Asia/Tokyo" _ _).2
      (by decide) (fun t => by decide)⟩

/-- Every fixed unit has a positive length. -/
theorem MUnit.len_pos (u : MUnit) : 0 < u.len := by
  cases u <;> norm_num [MUnit.len]

/-- Soundness of the recurrence emission loop: with enough fuel it
completes, every emitted instant lies in `[cur, e]`, the sequence is
strictly increasing, and when the range is nonempty the count is
`floor((e - cur) / step) + 1` with the range start as first element. -/
theorem recurAux_sound (e step : Int) (hstep : 0 < step) :
    ∀ (fuel : Nat) (cur : Int), (e + 1 - cur).toNat < fuel →
      ∃ l, recurAux e step fuel cur = some l ∧
        (∀ x ∈ l, cur ≤ x ∧ x ≤ e) ∧
        l.Chain' (· < ·) ∧
        (cur ≤ e → l.length = ((e - cur) / step).toNat + 1 ∧ l.head? = some cur) ∧
        (e < cur → l = []) := by
  intro fuel
  induction fuel with
  | zero => intro cur h; exact absurd h (Nat.not_lt_zero _)
  | succ f ih =>
    intro cur hcur
    by_cases hle : cur ≤ e
    · have hrec : (e + 1 - (cur + step)).toNat < f := by omega
      obtain ⟨l', hl', hmem, hchain, hlen, hemp⟩ := ih (cur + step) hrec
      refine ⟨cur :: l', ?_, ?_, ?_, fun _ => ⟨?_, rfl⟩, fun h2 => absurd hle (by omega)⟩
      · simp [recurAux, hle, hl']
      · rintro x hx
        rcases List.mem_cons.mp hx with rfl | hx'
        · exact ⟨le_refl _, hle⟩
        · have := hmem x hx'; omega
      · rw [List.chain'_cons']
        refine ⟨fun y hy => ?_, hchain⟩
        by_cases h2 : cur + step ≤ e
        · rw [(hlen h2).2] at hy
          simp only [Option.mem_some_iff] at hy
          omega
        · rw [hemp (by omega)] at hy
          simp at hy
      · by_cases h2 : cur + step ≤ e
        · have h3 := (hlen h2).1
          have e1 : e - (cur + step) = e - cur - step := by ring
          rw [e1] at h3
          have key := Int.add_mul_ediv_right (e - cur - step) 1
            (show step ≠ 0 by omega)
          rw [one_mul, show e - cur - step + step = e - cur from by ring] at key
          have hnn : 0 ≤ (e - cur - step) / step :=
            Int.ediv_nonneg (by omega) (by omega)
          simp only [List.length_cons]
          omega
        · have h3 := hemp (by omega)
          subst h3
          have hz : (e - cur) / step = 0 :=
            Int.ediv_eq_zero_of_lt (by omega) (by omega)
          simp [hz]
    · refine ⟨[], ?_, by simp, by simp, fun h => absurd h hle, fun _ => rfl⟩
      simp [recurAux, hle]

/-- The general emission loop at a fixed-length step is the fixed-length
emission loop. -/
theorem recurAuxG_fixed (e step : Int) :
    ∀ (fuel : Nat) (cur : Int),
      recurAuxG e (fun t => t + step) fuel cur = recurAux e step fuel cur := by
  intro fuel
  induction fuel with
  | zero => intro cur; rfl
  | succ f ih =>
    intro cur
    by_cases h : cur ≤ e
    · simp [recurAuxG, recurAux, h, ih]
    · simp [recurAuxG, recurAux, h]

/-- Soundness of the emission loop for any strictly increasing calendar
advance: with enough fuel it completes, every emitted instant lies in
`[cur, e]`, the sequence is strictly increasing, and a nonempty range
starts the sequence at `cur`. -/
theorem recurAuxG_sound (e : Int) (step : Int → Int)
    (hadv : ∀ t : Int, t < step t) :
    ∀ (fuel : Nat) (cur : Int), (e + 1 - cur).toNat < fuel →
      ∃ l, recurAuxG e step fuel cur = some l ∧
        (∀ x ∈ l, cur ≤ x ∧ x ≤ e) ∧
        l.Chain' (· < ·) ∧
        (cur ≤ e → l.head? = some cur) ∧
        (e < cur → l = []) := by
  intro fuel
  induction fuel with
  | zero => intro cur h; exact absurd h (Nat.not_lt_zero _)
  | succ f ih =>
    intro cur hcur
    by_cases hle : cur ≤ e
    · have hs := hadv cur
      obtain ⟨l', hl', hmem, hchain, hhead, hemp⟩ := ih (step cur) (by omega)
      refine ⟨cur :: l', by simp [recurAuxG, hle, hl'], ?_, ?_, fun _ => rfl,
        fun h2 => absurd hle (by omega)⟩
      · rintro x hx
        rcases List.mem_cons.mp hx with rfl | hx'
        · exact ⟨le_refl _, hle⟩
        · have := hmem x hx'; omega
      · rw [List.chain'_cons']
        refine ⟨fun y hy => ?_, hchain⟩
        by_cases h2 : step cur ≤ e
        · rw [hhead h2] at hy
          simp only [Option.mem_some_iff] at hy
          omega
        · rw [hemp (by omega)] at hy
          simp at hy
    · exact ⟨[], by simp [recurAuxG, hle], by simp, by simp,
        fun h => absurd h hle, fun _ => rfl⟩

/-- C5 counterexample: monthly recurrence from 2025-01-31 to 2025-03-30.
Moment's clamping month add emits Jan 31, Feb 28 (day clamped), Mar 28
(the clamp compounds through the mutated accumulator), so the code
produces 3 occurrences, while the claimed formula
`floor((end - start in months) / intervalValue) + 1` evaluates to
`floor((2 - 1/29) / 1) + 1 = 2`. -/
theorem generateRecurringEvents_month_count_counterexample :
    generateRecurringEvents (some (1440 * daysFromCivil 2025 1 31))
        (some (1440 * daysFromCivil 2025 3 30)) monthUnit 1 none
        (fun _ => true) =
      some [1440 * daysFromCivil 2025 1 31, 1440 * daysFromCivil 2025 2 28,
        1440 * daysFromCivil 2025 3 28] ∧
    (generateRecurringEvents (some (1440 * daysFromCivil 2025 1 31))
        (some (1440 * daysFromCivil 2025 3 30)) monthUnit 1 none
        (fun _ => true)).map List.length = some 3 ∧
    ⌊monthDiffQ (1440 * daysFromCivil 2025 3 30)
        (1440 * daysFromCivil 2025 1 31) / (1 : ℚ)⌋ + 1 = 2 := by
  refine ⟨by decide, by decide, ?_⟩
  rw [show monthDiffQ (1440 * daysFromCivil 2025 3 30)
      (1440 * daysFromCivil 2025 1 31) = 57 / 29 from by with_unfolding_all rfl]
  norm_num

/-- C5 (amended): for valid instants with `start <= end`, a positive
integer interval and any recurrence unit whose calendar advance is
strictly increasing (the spec's guarantee for every recognized unit),
`generateRecurringEvents` succeeds, every occurrence lies within
`[start, end]` and the sequence is strictly increasing; the count equals
`floor((end - start in the unit) / intervalValue) + 1` for the
fixed-length units (minute/hour/day/week), but not in general for the
clamping month/year units. -/
theorem generateRecurringEvents_amended (u : RecUnit) (iv s e : Int)
    (tzdb : String → Bool) (hse : s ≤ e) (hiv : 0 < iv)
    (hadv : ∀ t : Int, t < u.add iv t) :
    ∃ l, generateRecurringEvents (some s) (some e) u iv none tzdb = some l ∧
      (∀ x ∈ l, s ≤ x ∧ x ≤ e) ∧
      l.Chain' (· < ·) ∧
      (∀ mu : MUnit, u = mu.toRecUnit →
        l.length = ((e - s) / (iv * mu.len)).toNat + 1) := by
  obtain ⟨l, hl, hmem, hchain, -, -⟩ :=
    recurAuxG_sound e (u.add iv) hadv ((e + 1 - s).toNat + 1) s (by omega)
  refine ⟨l, ?_, hmem, hchain, ?_⟩
  · simp [generateRecurringEvents, show ¬ iv ≤ 0 by omega, hl]
  · rintro mu rfl
    have hb : recurAuxG e ((MUnit.toRecUnit mu).add iv) ((e + 1 - s).toNat + 1) s
        = recurAux e (iv * mu.len) ((e + 1 - s).toNat + 1) s :=
      recurAuxG_fixed e (iv * mu.len) ((e + 1 - s).toNat + 1) s
    rw [hb] at hl
    obtain ⟨l2, hl2, -, -, hlen2, -⟩ := recurAux_sound e (iv * mu.len)
      (mul_pos hiv (MUnit.len_pos mu)) ((e + 1 - s).toNat + 1) s (by omega)
    rw [hl2, Option.some_inj] at hl
    rw [← hl]
    exact (hlen2 hse).1

/-- Witness for the amended C5 theorem: the spec's walked example, day 0
to day 10 every 2 days, giving 6 occurrences. -/
theorem generateRecurringEvents_amended_witness :
    ∃ l, generateRecurringEvents (some 0) (some 14400) MUnit.days.toRecUnit
        2 none (fun _ => true) = some l ∧
      (∀ x ∈ l, 0 ≤ x ∧ x ≤ 14400) ∧
      l.Chain' (· < ·) ∧
      (∀ mu : MUnit, MUnit.days.toRecUnit = mu.toRecUnit →
        l.length = ((14400 - 0) / (2 * mu.len)).toNat + 1) :=
  generateRecurringEvents_amended MUnit.days.toRecUnit 2 0 14400
    (fun _ => true) (by norm_num) (by norm_num)
    (fun t => by simp [MUnit.toRecUnit, MUnit.len])

/-- C6: once the positivity precondition on `intervalValue` has been
validated, the emission loop of `generateRecurringEvents` terminates: some
finite fuel bound makes the loop return without exhausting its fuel, for
every larger fuel as well. -/
theorem recurrence_loop_terminates (u : MUnit) (iv s e : Int) (hiv : 0 < iv) :
    ∃ N : Nat, ∀ fuel : Nat, N ≤ fuel →
      (recurAux e (iv * u.len) fuel s).isSome := by
  refine ⟨(e + 1 - s).toNat + 1, fun fuel hf => ?_⟩
  have hstep : 0 < iv * u.len := mul_pos hiv (MUnit.len_pos u)
  obtain ⟨l, hl, -⟩ := recurAux_sound e (iv * u.len) hstep fuel s (by omega)
  simp [hl]

/-- Witness for the C6 theorem at a concrete range and interval. -/
theorem recurrence_loop_terminates_witness :
    ∃ N : Nat, ∀ fuel : Nat, N ≤ fuel →
      (recurAux 14400 (2 * MUnit.days.len) fuel 0).isSome :=
  recurrence_loop_terminates MUnit.days 2 0 14400 (by norm_num)

/-- Everything in a list is bounded by the max-fold, and so is the seed. -/
theorem foldr_max_bound (l : List Int) (a : Int) :
    (∀ x ∈ l, x ≤ l.foldr max a) ∧ a ≤ l.foldr max a := by
  induction l with
  | nil => exact ⟨by simp, le_refl a⟩
  | cons x l ih =>
    refine ⟨fun y hy => ?_, le_trans ih.2 (le_max_right _ _)⟩
    rcases List.mem_cons.mp hy with rfl | hy'
    · exact le_max_left _ _
    · exact le_trans (ih.1 y hy') (le_max_right _ _)

/-- The advancing loop of `getNextBusinessDay` succeeds whenever an
unblocked day sits on the same daily grid within the fuel bound, and the
day it returns is unblocked and between the start and that candidate. -/
theorem bdLoop_finds (hk : List Int) (b : Int) (hb : isBlockedDay hk b = false) :
    ∀ (fuel : Nat) (t0 : Int), t0 ≤ b → (b - t0) % 1440 = 0 →
      ((b - t0) / 1440).toNat < fuel →
      ∃ r, bdLoop hk fuel t0 = some r ∧ isBlockedDay hk r = false ∧
        t0 ≤ r ∧ r ≤ b := by
  intro fuel
  induction fuel with
  | zero => intro t0 _ _ h; exact absurd h (Nat.not_lt_zero _)
  | succ f ih =>
    intro t0 ht0 hmod hfuel
    cases hblk : isBlockedDay hk t0 with
    | false => exact ⟨t0, by simp [bdLoop, hblk], hblk, le_refl _, ht0⟩
    | true =>
      have hne : t0 ≠ b := fun h => by rw [h, hb] at hblk; cases hblk
      have hstep : t0 + 1440 ≤ b := by omega
      obtain ⟨r, hr, hrb, hr1, hr2⟩ := ih (t0 + 1440) hstep (by omega) (by omega)
      exact ⟨r, by simp [bdLoop, hblk, hr], hrb, by omega, hr2⟩

/-- The fuel bound of the business-day loop is justified by an explicit
unblocked target: the first Monday past the input day and every holiday
key.  The target is on the input's daily grid, strictly later, and within
the fuel bound. -/
theorem bdFuel_spec (hk : List Int) (t : Int) :
    ∃ b : Int, t + 1440 ≤ b ∧ isBlockedDay hk b = false ∧
      (b - (t + 1440)) % 1440 = 0 ∧
      ((b - (t + 1440)) / 1440).toNat < bdFuel hk t := by
  have hmax := foldr_max_bound hk (t / 1440)
  have h7a : 0 ≤ (-3 - (hk.foldr max (t / 1440) + 1)) % 7 :=
    Int.emod_nonneg _ (by norm_num)
  have h7b : (-3 - (hk.foldr max (t / 1440) + 1)) % 7 < 7 :=
    Int.emod_lt_of_pos _ (by norm_num)
  refine ⟨t + 1440 * ((hk.foldr max (t / 1440) + 1) +
    ((-3 - (hk.foldr max (t / 1440) + 1)) % 7) - t / 1440), ?_, ?_, ?_, ?_⟩
  · have := hmax.2
    omega
  · have hbd : (t + 1440 * ((hk.foldr max (t / 1440) + 1) +
        ((-3 - (hk.foldr max (t / 1440) + 1)) % 7) - t / 1440)) / 1440 =
        (hk.foldr max (t / 1440) + 1) +
        ((-3 - (hk.foldr max (t / 1440) + 1)) % 7) := by
      omega
    have hwd : weekday (t + 1440 * ((hk.foldr max (t / 1440) + 1) +
        ((-3 - (hk.foldr max (t / 1440) + 1)) % 7) - t / 1440)) = 1 := by
      rw [weekday, hbd]
      omega
    have hkey : hk.contains (dateKey (t + 1440 * ((hk.foldr max (t / 1440) + 1) +
        ((-3 - (hk.foldr max (t / 1440) + 1)) % 7) - t / 1440))) = false := by
      rw [dateKey, hbd]
      cases hc : hk.contains ((hk.foldr max (t / 1440) + 1) +
        ((-3 - (hk.foldr max (t / 1440) + 1)) % 7)) with
      | false => rfl
      | true =>
        exfalso
        have hm : ((hk.foldr max (t / 1440) + 1) +
            ((-3 - (hk.foldr max (t / 1440) + 1)) % 7)) ∈ hk := by
          simpa using hc
        have := hmax.1 _ hm
        omega
    simp only [isBlockedDay, hwd]
    simpa using hkey
  · omega
  · rw [bdFuel]
    have := hmax.2
    omega

/-- Totality of `getNextBusinessDay` on a valid date: it returns an
unblocked day strictly after the input (at least one calendar day). -/
theorem getNextBusinessDay_total (t : Int) (holidays : List (Option Int)) :
    ∃ r, getNextBusinessDay (some t) holidays = some r ∧
      isBlockedDay (holidayKeys holidays) r = false ∧ t + 1440 ≤ r := by
  obtain ⟨b, hbt, hbb, hmod, hfuel⟩ := bdFuel_spec (holidayKeys holidays) t
  obtain ⟨r, hr, hrb, hr1, _⟩ := bdLoop_finds (holidayKeys holidays) b hbb
    (bdFuel (holidayKeys holidays) t) (t + 1440) hbt hmod hfuel
  exact ⟨r, by simp [getNextBusinessDay, hr], hrb, hr1⟩

/-- C7: for every valid date and every holiday list, `getNextBusinessDay`
returns an instant strictly after the input (even when the input is
already a business day: the search starts at the next day), whose weekday
is neither Sunday (0) nor Saturday (6), and whose year-month-day key is
not among the resolved holiday keys. -/
theorem getNextBusinessDay_spec (t : Int) (holidays : List (Option Int)) :
    ∃ r, getNextBusinessDay (some t) holidays = some r ∧ t < r ∧
      weekday r ≠ 0 ∧ weekday r ≠ 6 ∧ dateKey r ∉ holidayKeys holidays := by
  obtain ⟨r, hr, hrb, hr1⟩ := getNextBusinessDay_total t holidays
  simp only [isBlockedDay, Bool.or_eq_false_iff, decide_eq_false_iff_not] at hrb
  refine ⟨r, hr, by omega, hrb.1.1, hrb.1.2, ?_⟩
  simpa using hrb.2

/-- C10: `getNextBusinessDay` silently ignores holiday entries that fail
to resolve (the result is the same as with those entries absent), the call
on a valid date always succeeds, and only an invalid date argument makes
the call itself fail. -/
theorem getNextBusinessDay_drops_invalid_holidays (t : Int)
    (holidays : List (Option Int)) :
    getNextBusinessDay (some t) holidays =
      getNextBusinessDay (some t) (holidays.filter (fun h => h.isSome)) ∧
    (getNextBusinessDay (some t) holidays).isSome ∧
    getNextBusinessDay (none : Option Int) holidays = none := by
  refine ⟨?_, ?_, rfl⟩
  · have hkeys : holidayKeys (holidays.filter (fun h => h.isSome)) =
        holidayKeys holidays := by
      rw [holidayKeys, holidayKeys]
      congr 1
      induction holidays with
      | nil => rfl
      | cons d rest ih => cases d <;> simpa using ih
    simp [getNextBusinessDay, hkeys]
  · obtain ⟨r, hr, -⟩ := getNextBusinessDay_total t holidays
    simp [hr]

/-- The tentative chunk end `currentStart.add(chunkSize - 1,
unit).endOf(unit)` is the last instant of the block `chunkSize` blocks
after the current one. -/
theorem split_curEnd_eq (u : CalUnit) (cs cur : Int) :
    u.endOfU (u.add (cs - 1) cur) = u.blockStart (u.idx cur + cs) - 1 := by
  rw [CalUnit.endOfU, u.idx_add,
    show u.idx cur + (cs - 1) + 1 = u.idx cur + cs from by ring]

/-- The next chunk start `currentStart.add(chunkSize, unit).startOf(unit)`
is the first instant of the block `chunkSize` blocks after the current
one, i.e. one instant past the tentative chunk end. -/
theorem split_next_eq (u : CalUnit) (cs cur : Int) :
    u.startOfU (u.add cs cur) = u.blockStart (u.idx cur + cs) := by
  rw [CalUnit.startOfU, u.idx_add]

/-- With a positive chunk size the tentative chunk end never precedes the
chunk start. -/
theorem split_cur_le_curEnd (u : CalUnit) (cs cur : Int) (hcs : 0 < cs) :
    cur ≤ u.blockStart (u.idx cur + cs) - 1 := by
  have h1 := u.lt_next cur
  have h2 := u.mono (u.idx cur + 1) (u.idx cur + cs) (by omega)
  omega

/-- Once the current start has passed the range end, the chunking loop
stops immediately (given any fuel at all). -/
theorem splitLoop_empty (u : CalUnit) (e cs : Int) :
    ∀ (fuel : Nat) (cur : Int), e < cur → 0 < fuel →
      splitLoop u e cs fuel cur = some [] := by
  intro fuel cur hlt hfuel
  match fuel, hfuel with
  | f + 1, _ => simp [splitLoop, show ¬ cur ≤ e by omega]

/-- Soundness of the chunking loop: with enough fuel it completes, the
first chunk starts at the current start, the last chunk ends at the range
end, consecutive chunks are contiguous, chunks are valid, mutually
non-overlapping, and together they cover exactly the remaining range. -/
theorem splitLoop_sound (u : CalUnit) (e cs : Int) (hcs : 0 < cs) :
    ∀ (fuel : Nat) (cur : Int), cur ≤ e → (e + 1 - cur).toNat < fuel →
      ∃ l, splitLoop u e cs fuel cur = some l ∧
        (l.map Prod.fst).head? = some cur ∧
        (l.map Prod.snd).getLast? = some e ∧
        l.Chain' (fun a b => b.1 = a.2 + 1) ∧
        (∀ p ∈ l, p.1 ≤ p.2) ∧
        (∀ p ∈ l, cur ≤ p.1) ∧
        l.Pairwise (fun a b => a.2 < b.1) ∧
        (∀ x : Int, (cur ≤ x ∧ x ≤ e) ↔ ∃ p ∈ l, p.1 ≤ x ∧ x ≤ p.2) := by
  intro fuel
  induction fuel with
  | zero => intro cur _ h; exact absurd h (Nat.not_lt_zero _)
  | succ f ih =>
    intro cur hcur hfuel
    have hcc : cur ≤ u.blockStart (u.idx cur + cs) - 1 :=
      split_cur_le_curEnd u cs cur hcs
    by_cases hbr : e < u.endOfU (u.add (cs - 1) cur)
    · refine ⟨[(cur, e)], by simp [splitLoop, hcur, hbr], by simp, by simp,
        by simp, by simp [hcur], by simp, by simp, fun x => ?_⟩
      simp
    · rw [split_curEnd_eq] at hbr
      push_neg at hbr
      by_cases h2 : u.blockStart (u.idx cur + cs) ≤ e
      · obtain ⟨l', hl', hhead, hlast, hchain, hvalid, hlow, hpair, hcov⟩ :=
          ih (u.blockStart (u.idx cur + cs)) h2 (by omega)
        have hl'ne : l' ≠ [] := by
          intro h; rw [h] at hhead; cases hhead
        have heval : splitLoop u e cs (f + 1) cur =
            (splitLoop u e cs f (u.blockStart (u.idx cur + cs))).map
              ((cur, u.blockStart (u.idx cur + cs) - 1) :: ·) := by
          simp only [splitLoop, if_pos hcur, split_curEnd_eq, split_next_eq,
            if_neg (show ¬ e < u.blockStart (u.idx cur + cs) - 1 by omega)]
        refine ⟨(cur, u.blockStart (u.idx cur + cs) - 1) :: l',
          by rw [heval, hl']; rfl, by simp, ?_, ?_, ?_, ?_, ?_, fun x => ?_⟩
        · obtain ⟨q, m, rfl⟩ := List.exists_cons_of_ne_nil hl'ne
          simpa using hlast
        · rw [List.chain'_cons']
          refine ⟨fun y hy => ?_, hchain⟩
          rw [List.head?_map] at hhead
          cases hl'h : l'.head? with
          | none => rw [hl'h] at hy; cases hy
          | some q =>
            have hq1 : q.1 = u.blockStart (u.idx cur + cs) := by
              rw [hl'h] at hhead
              simpa using hhead
            have hyq : y = q := by
              rw [hl'h] at hy
              exact (by simpa using hy : q = y).symm
            rw [hyq, hq1]
            omega
        · rintro p hp
          rcases List.mem_cons.mp hp with rfl | hp'
          · exact hcc
          · exact hvalid p hp'
        · rintro p hp
          rcases List.mem_cons.mp hp with rfl | hp'
          · exact le_refl _
          · have := hlow p hp'; omega
        · rw [List.pairwise_cons]
          refine ⟨fun q hq => ?_, hpair⟩
          have := hlow q hq
          omega
        · constructor
          · rintro ⟨hx1, hx2⟩
            by_cases hx3 : x ≤ u.blockStart (u.idx cur + cs) - 1
            · exact ⟨(cur, u.blockStart (u.idx cur + cs) - 1), by simp,
                hx1, hx3⟩
            · obtain ⟨p, hp, hp1, hp2⟩ := (hcov x).mp ⟨by omega, hx2⟩
              exact ⟨p, List.mem_cons_of_mem _ hp, hp1, hp2⟩
          · rintro ⟨p, hp, hp1, hp2⟩
            rcases List.mem_cons.mp hp with rfl | hp'
            · simp only at hp1 hp2
              omega
            · have h3 := hlow p hp'
              have h4 := (hcov x).mpr ⟨p, hp', hp1, hp2⟩
              omega
      · have heq : u.blockStart (u.idx cur + cs) - 1 = e := by omega
        have heval : splitLoop u e cs (f + 1) cur =
            (splitLoop u e cs f (u.blockStart (u.idx cur + cs))).map
              ((cur, u.blockStart (u.idx cur + cs) - 1) :: ·) := by
          simp only [splitLoop, if_pos hcur, split_curEnd_eq, split_next_eq,
            if_neg (show ¬ e < u.blockStart (u.idx cur + cs) - 1 by omega)]
        have hrec : splitLoop u e cs f (u.blockStart (u.idx cur + cs)) =
            some [] :=
          splitLoop_empty u e cs f _ (by omega) (by omega)
        refine ⟨[(cur, e)], by rw [heval, hrec, heq]; rfl, by simp, by simp,
          by simp, by simp [hcur], by simp, by simp, fun x => ?_⟩
        simp

/-- C4: for a valid range, any unit and a positive chunk size,
`splitDateRange` succeeds, the first chunk starts at the range start, the
last chunk ends at the range end, consecutive chunks are contiguous (next
start is previous end plus one instant), chunks are valid and pairwise
non-overlapping, and their union covers exactly the original range. -/
theorem splitDateRange_spec (u : CalUnit) (cs s e : Int) (hcs : 0 < cs)
    (hse : s ≤ e) :
    ∃ l, splitDateRange (some s) (some e) u cs = some l ∧
      (l.map Prod.fst).head? = some s ∧
      (l.map Prod.snd).getLast? = some e ∧
      l.Chain' (fun a b => b.1 = a.2 + 1) ∧
      (∀ p ∈ l, p.1 ≤ p.2) ∧
      l.Pairwise (fun a b => a.2 < b.1) ∧
      (∀ x : Int, (s ≤ x ∧ x ≤ e) ↔ ∃ p ∈ l, p.1 ≤ x ∧ x ≤ p.2) := by
  obtain ⟨l, hl, hhead, hlast, hchain, hvalid, _, hpair, hcov⟩ :=
    splitLoop_sound u e cs hcs ((e + 1 - s).toNat + 1) s hse (by omega)
  exact ⟨l, by simp [splitDateRange, show ¬ cs ≤ 0 by omega, hl],
    hhead, hlast, hchain, hvalid, hpair, hcov⟩

/-- Witness for the C4 theorem: splitting minutes 100..3000 into single
calendar days. -/
theorem splitDateRange_spec_witness :
    ∃ l, splitDateRange (some 100) (some 3000) dayUnit 1 = some l ∧
      (l.map Prod.fst).head? = some 100 ∧
      (l.map Prod.snd).getLast? = some 3000 ∧
      l.Chain' (fun a b => b.1 = a.2 + 1) ∧
      (∀ p ∈ l, p.1 ≤ p.2) ∧
      l.Pairwise (fun a b => a.2 < b.1) ∧
      (∀ x : Int, (100 ≤ x ∧ x ≤ 3000) ↔ ∃ p ∈ l, p.1 ≤ x ∧ x ≤ p.2) :=
  splitDateRange_spec dayUnit 1 100 3000 (by norm_num) (by norm_num)

/-- With positive duration, the inner slot loop never exhausts the fuel
the day loop hands it. -/
theorem slotsInDay_isSome (dayEnd e dur : Int) (hdur : 0 < dur) :
    ∀ (fuel : Nat) (s0 : Int), (dayEnd + 1 - s0).toNat < fuel →
      (slotsInDay dayEnd e dur fuel s0).isSome := by
  intro fuel
  induction fuel with
  | zero => intro s0 h; exact absurd h (Nat.not_lt_zero _)
  | succ f ih =>
    intro s0 hf
    by_cases hg : s0 ≤ dayEnd ∧ s0 ≤ e
    · by_cases hbr : dayEnd < s0 + dur ∨ e < s0 + dur
      · simp [slotsInDay, hg, hbr]
      · have hrec := ih (s0 + dur) (by omega)
        obtain ⟨m, hm⟩ := Option.isSome_iff_exists.mp hrec
        simp [slotsInDay, hg, hbr, hm]
    · simp [slotsInDay, hg]

/-- Safety of the inner slot loop: every emitted slot starts at or after
the loop start, lasts exactly the requested duration, ends within both the
daily window and the overall range, and slots are pairwise
non-overlapping. -/
theorem slotsInDay_sound (dayEnd e dur : Int) (hdur : 0 < dur) :
    ∀ (fuel : Nat) (s0 : Int) (m : List (Int × Int)),
      slotsInDay dayEnd e dur fuel s0 = some m →
      (∀ p ∈ m, s0 ≤ p.1 ∧ p.2 = p.1 + dur ∧ p.2 ≤ dayEnd ∧ p.2 ≤ e) ∧
      m.Pairwise (fun a b => a.2 ≤ b.1) := by
  intro fuel
  induction fuel with
  | zero => intro s0 m h; cases h
  | succ f ih =>
    intro s0 m hm
    by_cases hg : s0 ≤ dayEnd ∧ s0 ≤ e
    · by_cases hbr : dayEnd < s0 + dur ∨ e < s0 + dur
      · simp only [slotsInDay, if_pos hg, if_pos hbr, Option.some_inj] at hm
        subst hm
        exact ⟨by simp, by simp⟩
      · simp only [slotsInDay, if_pos hg, if_neg hbr] at hm
        cases hres : slotsInDay dayEnd e dur f (s0 + dur) with
        | none => rw [hres] at hm; cases hm
        | some m' =>
          rw [hres] at hm
          simp only [Option.map_some', Option.some_inj] at hm
          subst hm
          obtain ⟨hmem, hpair⟩ := ih (s0 + dur) m' hres
          push_neg at hbr
          constructor
          · rintro p hp
            rcases List.mem_cons.mp hp with rfl | hp'
            · exact ⟨le_refl _, rfl, hbr.1, hbr.2⟩
            · have := hmem p hp'
              refine ⟨by omega, this.2.1, this.2.2.1, this.2.2.2⟩
          · rw [List.pairwise_cons]
            exact ⟨fun q hq => by have := hmem q hq; simpa using this.1, hpair⟩
    · simp only [slotsInDay, if_neg hg, Option.some_inj] at hm
      subst hm
      exact ⟨by simp, by simp⟩

/-- The per-day slot computation always succeeds when the duration is
positive. -/
theorem daySlots_isSome (e dur : Int) (c : SlotConstraints) (hdur : 0 < dur)
    (current : Int) : (daySlots e dur c current).isSome := by
  rw [daySlots]
  by_cases hcond : ¬ c.days.contains (weekday current) ∧
      (current / 1440) * 1440 + c.hs ≤ e
  · rw [if_pos hcond]
    exact slotsInDay_isSome _ _ _ hdur _ _ (by omega)
  · rw [if_neg hcond]
    rfl

/-- Safety of the per-day slot computation: slots start in the day's
window, last exactly the duration, and end within the window and the
overall range. -/
theorem daySlots_sound (e dur : Int) (c : SlotConstraints) (hdur : 0 < dur)
    (current : Int) (m : List (Int × Int)) (hm : daySlots e dur c current = some m) :
    (∀ p ∈ m, (current / 1440) * 1440 + c.hs ≤ p.1 ∧ p.2 = p.1 + dur ∧
      p.2 ≤ (current / 1440) * 1440 + c.he ∧ p.2 ≤ e) ∧
    m.Pairwise (fun a b => a.2 ≤ b.1) := by
  rw [daySlots] at hm
  by_cases hcond : ¬ c.days.contains (weekday current) ∧
      (current / 1440) * 1440 + c.hs ≤ e
  · rw [if_pos hcond] at hm
    exact slotsInDay_sound _ _ _ hdur _ _ _ hm
  · rw [if_neg hcond, Option.some_inj] at hm
    subst hm
    exact ⟨by simp, by simp⟩

/-- With positive duration the day loop never exhausts the fuel chosen by
`generateTimeSlots`. -/
theorem slotDayLoop_isSome (e dur : Int) (c : SlotConstraints) (hdur : 0 < dur) :
    ∀ (fuel : Nat) (current : Int), (e + 1 - current).toNat < fuel →
      (slotDayLoop e dur c fuel current).isSome := by
  intro fuel
  induction fuel with
  | zero => intro current h; exact absurd h (Nat.not_lt_zero _)
  | succ f ih =>
    intro current hf
    by_cases hg : current ≤ e
    · have hrec := ih ((current / 1440 + 1) * 1440) (by omega)
      obtain ⟨a, ha⟩ := Option.isSome_iff_exists.mp (daySlots_isSome e dur c hdur current)
      obtain ⟨b, hb⟩ := Option.isSome_iff_exists.mp hrec
      simp [slotDayLoop, hg, ha, hb]
    · simp [slotDayLoop, hg]

/-- Safety of the day loop: every slot it returns lasts exactly the
requested duration, ends at or before the overall end, lies within its own
day's constrained window, starts no earlier than the current day's window
start, and the slots are pairwise non-overlapping. -/
theorem slotDayLoop_sound (e dur : Int) (c : SlotConstraints) (hdur : 0 < dur)
    (hhs : 0 ≤ c.hs) (hhe : c.he ≤ 1439) :
    ∀ (fuel : Nat) (current : Int) (l : List (Int × Int)),
      slotDayLoop e dur c fuel current = some l →
      (∀ p ∈ l, (current / 1440) * 1440 + c.hs ≤ p.1 ∧ p.2 = p.1 + dur ∧
        p.2 ≤ e ∧ (p.1 / 1440) * 1440 + c.hs ≤ p.1 ∧
        p.2 ≤ (p.1 / 1440) * 1440 + c.he) ∧
      l.Pairwise (fun a b => a.2 ≤ b.1) := by
  intro fuel
  induction fuel with
  | zero => intro current l h; cases h
  | succ f ih =>
    intro current l hl
    by_cases hg : current ≤ e
    · simp only [slotDayLoop, if_pos hg] at hl
      cases ha : daySlots e dur c current with
      | none => rw [ha] at hl; cases hl
      | some a =>
        cases hb : slotDayLoop e dur c f ((current / 1440 + 1) * 1440) with
        | none => rw [ha, hb] at hl; cases hl
        | some b =>
          rw [ha, hb] at hl
          simp only [Option.some_bind, Option.map_some', Option.some_inj] at hl
          subst hl
          obtain ⟨hamem, hapair⟩ := daySlots_sound e dur c hdur current a ha
          obtain ⟨hbmem, hbpair⟩ := ih ((current / 1440 + 1) * 1440) b hb
          have hbday : ((current / 1440 + 1) * 1440) / 1440 = current / 1440 + 1 := by
            omega
          constructor
          · rintro p hp
            rcases List.mem_append.mp hp with hp' | hp'
            · have h1 := hamem p hp'
              have hpd : p.1 / 1440 = current / 1440 := by omega
              rw [hpd]
              exact ⟨h1.1, h1.2.1, h1.2.2.2, h1.1, h1.2.2.1⟩
            · have h1 := hbmem p hp'
              rw [hbday] at h1
              exact ⟨by omega, h1.2.1, h1.2.2.1, h1.2.2.2.1, h1.2.2.2.2⟩
          · rw [List.pairwise_append]
            refine ⟨hapair, hbpair, fun p hp q hq => ?_⟩
            have h1 := hamem p hp
            have h2 := hbmem q hq
            rw [hbday] at h2
            omega
    · simp only [slotDayLoop, if_neg hg, Option.some_inj] at hl
      subst hl
      exact ⟨by simp, by simp⟩

/-- C2 counterexample: with range start at minute 720 of day 0 (12:00),
range end at minute 1439, hourly slots and the default constraints, the
first emitted slot is `(0, 60)`: it begins twelve hours before the overall
range start, so a slot is not always contained in `[start, end]`. -/
theorem generateTimeSlots_outside_range_counterexample :
    ∃ l, generateTimeSlots (some 720) (some 1439) 60 defaultConstraints none
        (fun _ => true) = some l ∧
      ∃ p ∈ l, p.1 < 720 := by
  refine ⟨_, rfl, (0, 60), ?_, by norm_num⟩
  decide

/-- C2 (amended): for a successful call (valid instants, positive integer
duration, a daily window given by valid `HH:mm` times) no two slots
overlap, every slot's duration is exactly the requested number of minutes,
every slot lies within its day's constrained window, and no slot ends
after the overall range end.  (Unlike the original claim, a slot may begin
before the overall range start: the first day's window opens at the
constraint time even when `start` is later in that day.) -/
theorem generateTimeSlots_amended (s e dur : Int) (c : SlotConstraints)
    (tzdb : String → Bool) (_hse : s ≤ e) (hdur : 0 < dur) (hhs : 0 ≤ c.hs)
    (hhe : c.he ≤ 1439) :
    ∃ l, generateTimeSlots (some s) (some e) dur c none tzdb = some l ∧
      l.Pairwise (fun a b => a.2 ≤ b.1) ∧
      ∀ p ∈ l, p.2 = p.1 + dur ∧ p.2 ≤ e ∧
        (p.1 / 1440) * 1440 + c.hs ≤ p.1 ∧
        p.2 ≤ (p.1 / 1440) * 1440 + c.he := by
  obtain ⟨l, hl⟩ := Option.isSome_iff_exists.mp
    (slotDayLoop_isSome e dur c hdur ((e + 1 - s).toNat + 1) s (by omega))
  obtain ⟨hmem, hpair⟩ := slotDayLoop_sound e dur c hdur hhs hhe _ s l hl
  refine ⟨l, ?_, hpair, fun p hp => ?_⟩
  · simp [generateTimeSlots, show ¬ dur ≤ 0 by omega, hl]
  · have := hmem p hp
    exact ⟨this.2.1, this.2.2.1, this.2.2.2.1, this.2.2.2.2⟩

/-- Witness for the amended C2 theorem: two days with a 09:00-17:00
window and half-hour slots. -/
theorem generateTimeSlots_amended_witness :
    ∃ l, generateTimeSlots (some 0) (some 2879) 30 ⟨[0, 6], 540, 1020⟩ none
        (fun _ => true) = some l ∧
      l.Pairwise (fun a b => a.2 ≤ b.1) ∧
      ∀ p ∈ l, p.2 = p.1 + 30 ∧ p.2 ≤ 2879 ∧
        (p.1 / 1440) * 1440 + (⟨[0, 6], 540, 1020⟩ : SlotConstraints).hs ≤ p.1 ∧
        p.2 ≤ (p.1 / 1440) * 1440 + (⟨[0, 6], 540, 1020⟩ : SlotConstraints).he :=
  generateTimeSlots_amended 0 2879 30 ⟨[0, 6], 540, 1020⟩ (fun _ => true)
    (by norm_num) (by norm_num) (by norm_num) (by norm_num)

end JsDateUtils
